import Mathlib

/-!
# PassGuard: `calc_entropy` (src/entropy.c)

A shallow embedding of the single function of the repository,

    double calc_entropy(const char* password)

followed by the properties of its specification.

Modelling choices, all read off the source:

* A `const char*` argument is either the null pointer (`none`) or points at a
  buffer of bytes (`some bytes`).  The buffer is a list of bytes followed by
  the terminating NUL, so a read at or past the end of the list yields `0`
  and `strlen` counts the bytes in front of the first NUL.
* `int` values are integers; the narrowing `(int)strlen(password)` is the
  usual wrap-around modulo `2^32` into the signed 32-bit range.  No other
  `int` operation of the function can leave that range (`i < len`, and
  `pool` is at most `94`).
* `double` arithmetic is read over the real numbers: `log` is the natural
  logarithm `Real.log`, and `0.0` is `0`.  The conversions of `pool` and
  `len` to `double` are exact.  The rounding of the three operations of
  line 23 is not modelled: a sum of two results that equals a third result
  here may differ from it in the last bit of the `double`.
-/

namespace PassGuard

/-! ## Data model -/

/-- One `unsigned char`: a value in `0..255`. -/
abbrev Byte := Fin 256

/-- The four `int` flags declared on line 10. -/
structure Flags where
  hasLower : Int
  hasUpper : Int
  hasDigit : Int
  hasSymbol : Int
  deriving DecidableEq, Repr

/-- All four flags as initialised on line 10. -/
def Flags.init : Flags := ⟨0, 0, 0, 0⟩

/-! ## The code -/

/-- The C library `strlen`: number of bytes in front of the first NUL. -/
def strlen (password : List Byte) : Nat :=
  (password.takeWhile (fun c => c != 0)).length

/-- The conversion `(int)` applied to a `size_t`: wrap-around modulo `2^32`
into the signed 32-bit range. -/
def toInt32 (n : Nat) : Int :=
  if n % 2 ^ 32 < 2 ^ 31 then ((n % 2 ^ 32 : Nat) : Int)
  else ((n % 2 ^ 32 : Nat) : Int) - 2 ^ 32

/-- The test `c >= 'a' && c <= 'z'` of line 13. -/
def isLower (c : Byte) : Prop := 97 ≤ c.val ∧ c.val ≤ 122

/-- The test `c >= 'A' && c <= 'Z'` of line 14. -/
def isUpper (c : Byte) : Prop := 65 ≤ c.val ∧ c.val ≤ 90

/-- The test `c >= '0' && c <= '9'` of line 15. -/
def isDigit (c : Byte) : Prop := 48 ≤ c.val ∧ c.val ≤ 57

instance : DecidablePred isLower := fun c =>
  inferInstanceAs (Decidable (97 ≤ c.val ∧ c.val ≤ 122))

instance : DecidablePred isUpper := fun c =>
  inferInstanceAs (Decidable (65 ≤ c.val ∧ c.val ≤ 90))

instance : DecidablePred isDigit := fun c =>
  inferInstanceAs (Decidable (48 ≤ c.val ∧ c.val ≤ 57))

/-- The loop body, lines 12-16: the if / else-if chain on one byte. -/
def classify (f : Flags) (c : Byte) : Flags :=
  if isLower c then { f with hasLower := 1 }
  else if isUpper c then { f with hasUpper := 1 }
  else if isDigit c then { f with hasDigit := 1 }
  else { f with hasSymbol := 1 }

/-- The loop of lines 11-17 with `n` iterations left to run, the counter at
`i` and the flags at `f`.  `password[i]` reads the buffer; the position just
behind the list holds the terminating NUL. -/
def scanLoop (password : List Byte) : Nat → Nat → Flags → Flags
  | 0, _, f => f
  | n + 1, i, f => scanLoop password n (i + 1) (classify f (password.getD i 0))

/-- Lines 9 and 18-21: `pool` starts at `0` and takes one addition per flag
that is set. -/
def poolSum (f : Flags) : Int :=
  let pool : Int := 0
  let pool := if f.hasLower ≠ 0 then pool + 26 else pool
  let pool := if f.hasUpper ≠ 0 then pool + 26 else pool
  let pool := if f.hasDigit ≠ 0 then pool + 10 else pool
  let pool := if f.hasSymbol ≠ 0 then pool + 32 else pool
  pool

/-- Line 22: `if (pool <= 0) pool = 1;`. -/
def clampPool (pool : Int) : Int :=
  if pool ≤ 0 then 1 else pool

/-- Line 7: the value of `len`. -/
def calc_len (password : List Byte) : Int :=
  toInt32 (strlen password)

/-- The flags when the loop of lines 11-17 is left: the loop runs while
`i < len` from `i = 0`, that is `len` times, and not at all for `len ≤ 0`. -/
def calc_flags (password : List Byte) : Flags :=
  scanLoop password (calc_len password).toNat 0 Flags.init

/-- The value of `pool` on reaching line 22, in front of the clamp. -/
def calc_pool_raw (password : List Byte) : Int :=
  poolSum (calc_flags password)

/-- The value of `pool` on reaching line 23, the argument of `log`. -/
def calc_pool (password : List Byte) : Int :=
  clampPool (calc_pool_raw password)

/-- The function `calc_entropy`, lines 5-25, on a null pointer (`none`) or a
buffer (`some password`). -/
noncomputable def calc_entropy : Option (List Byte) → ℝ
  | none => 0
  | some password =>
    if calc_len password = 0 then 0
    else (calc_len password : ℝ) * (Real.log ((calc_pool password : Int) : ℝ) / Real.log 2)

/-! ## The code with its partial operations made explicit

The same function once more, now failing (`none`) where C leaves the
behaviour undefined: a read of `password[i]` outside the buffer, an overflow
of the counter `i`, and a logarithm of a number that is not positive. -/

/-- The loop of lines 11-17 with checked reads and a checked `++i`. -/
def scanLoopChecked (password : List Byte) : Nat → Nat → Flags → Option Flags
  | 0, _, f => some f
  | n + 1, i, f =>
    if i ≤ password.length ∧ i + 1 < 2 ^ 31 then
      scanLoopChecked password n (i + 1) (classify f (password.getD i 0))
    else none

/-- The logarithm of line 23, defined on positive arguments only. -/
noncomputable def logChecked (pool : Int) : Option ℝ :=
  if 0 < pool then some (Real.log ((pool : Int) : ℝ)) else none

/-- The function `calc_entropy` over the checked operations. -/
noncomputable def calc_entropy_checked : Option (List Byte) → Option ℝ
  | none => some 0
  | some password =>
    if calc_len password = 0 then some 0
    else
      match scanLoopChecked password (calc_len password).toNat 0 Flags.init with
      | none => none
      | some flags =>
        match logChecked (clampPool (poolSum flags)) with
        | none => none
        | some l => some ((calc_len password : ℝ) * (l / Real.log 2))

/-! ## The code as a sequence of assignments to its automatic variables

The function has no static or global variable and calls `strlen` and `log`
only, so the one thing a call could inherit from an earlier call is the
content of its own stack frame.  Here every statement is an update of that
frame, and a call starts on an arbitrary frame. -/

/-- The automatic variables of `calc_entropy`. -/
structure Frame where
  len : Int
  pool : Int
  flags : Flags
  i : Int
  c : Byte
  bits : ℝ

/-- The loop of lines 11-17 on the frame, with `n` iterations left to run. -/
def frameLoop (password : List Byte) : Nat → Frame → Frame
  | 0, fr => fr
  | n + 1, fr =>
    let fr := { fr with c := password.getD fr.i.toNat 0 }
    let fr := { fr with flags := classify fr.flags fr.c }
    frameLoop password n { fr with i := fr.i + 1 }

/-- One call of `calc_entropy` started on the frame `stale`: the value
returned and the frame left behind. -/
noncomputable def calc_entropy_call (stale : Frame) : Option (List Byte) → ℝ × Frame
  | none => (0, stale)
  | some password =>
    let fr := { stale with len := toInt32 (strlen password) }
    if fr.len = 0 then (0, fr)
    else
      let fr := { fr with pool := 0 }
      let fr := { fr with flags := ⟨0, 0, 0, 0⟩ }
      let fr := { fr with i := 0 }
      let fr := frameLoop password (fr.len - fr.i).toNat fr
      let fr := { fr with pool := if fr.flags.hasLower ≠ 0 then fr.pool + 26 else fr.pool }
      let fr := { fr with pool := if fr.flags.hasUpper ≠ 0 then fr.pool + 26 else fr.pool }
      let fr := { fr with pool := if fr.flags.hasDigit ≠ 0 then fr.pool + 10 else fr.pool }
      let fr := { fr with pool := if fr.flags.hasSymbol ≠ 0 then fr.pool + 32 else fr.pool }
      let fr := { fr with pool := if fr.pool ≤ 0 then 1 else fr.pool }
      let fr := { fr with bits := (fr.len : ℝ) * (Real.log ((fr.pool : Int) : ℝ) / Real.log 2) }
      (fr.bits, fr)

/-! ## The specification's vocabulary -/

/-- The catch-all bucket of the specification: a byte in none of the three
alphanumeric ranges. -/
def isSymbol (c : Byte) : Prop := ¬ isLower c ∧ ¬ isUpper c ∧ ¬ isDigit c

instance : DecidablePred isSymbol := fun c =>
  inferInstanceAs (Decidable (¬ isLower c ∧ ¬ isUpper c ∧ ¬ isDigit c))

/-- The four tests of the specification applied to a byte independently of
one another, in no order: each flag is set by its own test alone. -/
def classifyUnordered (f : Flags) (c : Byte) : Flags :=
  { hasLower := if isLower c then 1 else f.hasLower
    hasUpper := if isUpper c then 1 else f.hasUpper
    hasDigit := if isDigit c then 1 else f.hasDigit
    hasSymbol := if isSymbol c then 1 else f.hasSymbol }

/-- The number of buckets, out of the four, that a byte falls in. -/
def bucketCount (c : Byte) : Nat :=
  (if isLower c then 1 else 0) + (if isUpper c then 1 else 0)
    + (if isDigit c then 1 else 0) + (if isSymbol c then 1 else 0)

/-- A password in the sense of the specification: a byte sequence without NUL. -/
def NulFree (s : List Byte) : Prop := ∀ c ∈ s, c ≠ 0

instance (s : List Byte) : Decidable (NulFree s) :=
  List.decidableBAll (fun c => c ≠ 0) s

/-- Some byte of the password lies in the character class `P`. -/
def Present (P : Byte → Prop) (s : List Byte) : Prop := ∃ c ∈ s, P c

instance (P : Byte → Prop) [DecidablePred P] (s : List Byte) : Decidable (Present P s) :=
  List.decidableBEx P s

/-- The pool size in the words of the specification: the sum of one fixed
contribution per character class that occurs in the password. -/
def specPool (s : List Byte) : Int :=
  26 * (if Present isLower s then 1 else 0)
    + 26 * (if Present isUpper s then 1 else 0)
    + 10 * (if Present isDigit s then 1 else 0)
    + 32 * (if Present isSymbol s then 1 else 0)

/-- Two passwords have the same character classes present. -/
def SameClasses (s t : List Byte) : Prop :=
  (Present isLower s ↔ Present isLower t)
    ∧ (Present isUpper s ↔ Present isUpper t)
    ∧ (Present isDigit s ↔ Present isDigit t)
    ∧ (Present isSymbol s ↔ Present isSymbol t)

instance (s t : List Byte) : Decidable (SameClasses s t) :=
  inferInstanceAs (Decidable
    ((Present isLower s ↔ Present isLower t)
      ∧ (Present isUpper s ↔ Present isUpper t)
      ∧ (Present isDigit s ↔ Present isDigit t)
      ∧ (Present isSymbol s ↔ Present isSymbol t)))

theorem strlen_of_nulFree {s : List Byte} (h : NulFree s) : strlen s = s.length := by
  unfold strlen
  induction s with
  | nil => rfl
  | cons a t ih =>
    have ha : a ≠ 0 := h a (List.mem_cons_self a t)
    have ht : NulFree t := fun c hc => h c (List.mem_cons_of_mem a hc)
    simp [List.takeWhile_cons, ha, ih ht]

theorem toInt32_of_lt {n : Nat} (h : n < 2 ^ 31) : toInt32 n = (n : Int) := by
  unfold toInt32
  have h1 : n % 2 ^ 32 = n := Nat.mod_eq_of_lt (by omega)
  rw [h1, if_pos h]

theorem calc_len_of_short {s : List Byte} (h : NulFree s) (hlen : s.length < 2 ^ 31) :
    calc_len s = (s.length : Int) := by
  unfold calc_len
  rw [strlen_of_nulFree h, toInt32_of_lt hlen]

/-- Inside the buffer the loop is a left fold of the loop body over the bytes
it visits. -/
theorem scanLoop_eq_foldl (s : List Byte) :
    ∀ (n i : Nat) (f : Flags), i + n ≤ s.length →
      scanLoop s n i f = ((s.drop i).take n).foldl classify f := by
  intro n
  induction n with
  | zero => intro i f _; simp [scanLoop]
  | succ n ih =>
    intro i f h
    have hi : i < s.length := by omega
    have hd : s.drop i = s[i] :: s.drop (i + 1) := List.drop_eq_getElem_cons hi
    have hg : s.getD i 0 = s[i] := by
      simp [List.getD_eq_getElem?_getD, List.getElem?_eq_getElem hi]
    rw [scanLoop, ih (i + 1) _ (by omega), hd, hg]
    rfl

theorem calc_flags_of_short {s : List Byte} (h : NulFree s) (hlen : s.length < 2 ^ 31) :
    calc_flags s = s.foldl classify Flags.init := by
  unfold calc_flags
  rw [calc_len_of_short h hlen, Int.toNat_ofNat, scanLoop_eq_foldl s _ 0 _ (by omega)]
  simp

/-! ## The flags after the scan -/

theorem not_isUpper_of_isLower {c : Byte} (h : isLower c) : ¬ isUpper c := by
  unfold isLower at h; unfold isUpper; omega

theorem not_isDigit_of_isLower {c : Byte} (h : isLower c) : ¬ isDigit c := by
  unfold isLower at h; unfold isDigit; omega

theorem not_isDigit_of_isUpper {c : Byte} (h : isUpper c) : ¬ isDigit c := by
  unfold isUpper at h; unfold isDigit; omega

theorem classify_hasLower (f : Flags) (c : Byte) :
    (classify f c).hasLower ≠ 0 ↔ (f.hasLower ≠ 0 ∨ isLower c) := by
  unfold classify
  split_ifs with h1 h2 h3 <;> simp [h1]

theorem classify_hasUpper (f : Flags) (c : Byte) :
    (classify f c).hasUpper ≠ 0 ↔ (f.hasUpper ≠ 0 ∨ isUpper c) := by
  unfold classify
  split_ifs with h1 h2 h3
  · simp [not_isUpper_of_isLower h1]
  · simp [h2]
  · simp [h2]
  · simp [h2]

theorem classify_hasDigit (f : Flags) (c : Byte) :
    (classify f c).hasDigit ≠ 0 ↔ (f.hasDigit ≠ 0 ∨ isDigit c) := by
  unfold classify
  split_ifs with h1 h2 h3
  · simp [not_isDigit_of_isLower h1]
  · simp [not_isDigit_of_isUpper h2]
  · simp [h3]
  · simp [h3]

theorem classify_hasSymbol (f : Flags) (c : Byte) :
    (classify f c).hasSymbol ≠ 0 ↔ (f.hasSymbol ≠ 0 ∨ isSymbol c) := by
  unfold classify isSymbol
  split_ifs with h1 h2 h3 <;> simp_all

theorem foldl_hasLower (s : List Byte) : ∀ f : Flags,
    (s.foldl classify f).hasLower ≠ 0 ↔ (f.hasLower ≠ 0 ∨ Present isLower s) := by
  induction s with
  | nil => intro f; simp [Present]
  | cons a t ih => intro f; simp [Present] at ih ⊢; simp [ih, classify_hasLower, or_assoc]

theorem foldl_hasUpper (s : List Byte) : ∀ f : Flags,
    (s.foldl classify f).hasUpper ≠ 0 ↔ (f.hasUpper ≠ 0 ∨ Present isUpper s) := by
  induction s with
  | nil => intro f; simp [Present]
  | cons a t ih => intro f; simp [Present] at ih ⊢; simp [ih, classify_hasUpper, or_assoc]

theorem foldl_hasDigit (s : List Byte) : ∀ f : Flags,
    (s.foldl classify f).hasDigit ≠ 0 ↔ (f.hasDigit ≠ 0 ∨ Present isDigit s) := by
  induction s with
  | nil => intro f; simp [Present]
  | cons a t ih => intro f; simp [Present] at ih ⊢; simp [ih, classify_hasDigit, or_assoc]

theorem foldl_hasSymbol (s : List Byte) : ∀ f : Flags,
    (s.foldl classify f).hasSymbol ≠ 0 ↔ (f.hasSymbol ≠ 0 ∨ Present isSymbol s) := by
  induction s with
  | nil => intro f; simp [Present]
  | cons a t ih => intro f; simp [Present] at ih ⊢; simp [ih, classify_hasSymbol, or_assoc]

/-- The sum of lines 18-21 over the flags of a full scan is the pool of the
specification. -/
theorem poolSum_foldl (s : List Byte) :
    poolSum (s.foldl classify Flags.init) = specPool s := by
  have hl : (s.foldl classify Flags.init).hasLower ≠ 0 ↔ Present isLower s := by
    rw [foldl_hasLower]; simp [Flags.init]
  have hu : (s.foldl classify Flags.init).hasUpper ≠ 0 ↔ Present isUpper s := by
    rw [foldl_hasUpper]; simp [Flags.init]
  have hd : (s.foldl classify Flags.init).hasDigit ≠ 0 ↔ Present isDigit s := by
    rw [foldl_hasDigit]; simp [Flags.init]
  have hs : (s.foldl classify Flags.init).hasSymbol ≠ 0 ↔ Present isSymbol s := by
    rw [foldl_hasSymbol]; simp [Flags.init]
  unfold poolSum specPool
  simp only [hl, hu, hd, hs]
  split_ifs <;> norm_num

/-- Every byte falls in one of the four buckets. -/
theorem class_cases (c : Byte) : isLower c ∨ isUpper c ∨ isDigit c ∨ isSymbol c := by
  unfold isSymbol
  tauto

/-- A non-empty password has a pool of at least `10` by the specification's
formula. -/
theorem specPool_ge {s : List Byte} (h : s ≠ []) : 10 ≤ specPool s := by
  obtain ⟨a, t, rfl⟩ := List.exists_cons_of_ne_nil h
  unfold specPool
  rcases class_cases a with ha | ha | ha | ha
  · have : Present isLower (a :: t) := ⟨a, List.mem_cons_self a t, ha⟩
    rw [if_pos this]; split_ifs <;> norm_num
  · have : Present isUpper (a :: t) := ⟨a, List.mem_cons_self a t, ha⟩
    rw [if_pos this]; split_ifs <;> norm_num
  · have : Present isDigit (a :: t) := ⟨a, List.mem_cons_self a t, ha⟩
    rw [if_pos this]; split_ifs <;> norm_num
  · have : Present isSymbol (a :: t) := ⟨a, List.mem_cons_self a t, ha⟩
    rw [if_pos this]; split_ifs <;> norm_num

theorem calc_pool_raw_of_short {s : List Byte} (h : NulFree s) (hlen : s.length < 2 ^ 31) :
    calc_pool_raw s = specPool s := by
  unfold calc_pool_raw
  rw [calc_flags_of_short h hlen, poolSum_foldl]

theorem calc_pool_of_short {s : List Byte} (hne : s ≠ []) (h : NulFree s)
    (hlen : s.length < 2 ^ 31) : calc_pool s = specPool s := by
  unfold calc_pool clampPool
  rw [calc_pool_raw_of_short h hlen]
  have := specPool_ge hne
  rw [if_neg (by omega)]

theorem calc_entropy_of_short {s : List Byte} (hne : s ≠ []) (h : NulFree s)
    (hlen : s.length < 2 ^ 31) :
    calc_entropy (some s) = (s.length : ℝ) * Real.logb 2 ((calc_pool s : Int) : ℝ) := by
  have hl := calc_len_of_short h hlen
  have hpos : 0 < s.length := List.length_pos.mpr hne
  have hz : calc_len s ≠ 0 := by rw [hl]; exact_mod_cast hpos.ne'
  simp only [calc_entropy, if_neg hz]
  rw [hl]
  simp only [Real.logb, Int.cast_natCast]

/-! ## The clamp and the wrapped length -/

theorem clampPool_ge_one (pool : Int) : 1 ≤ clampPool pool := by
  unfold clampPool
  split_ifs <;> omega

theorem calc_pool_ge_one (password : List Byte) : 1 ≤ calc_pool password :=
  clampPool_ge_one _

/-- When `len` is not positive the loop does not run and no flag is set. -/
theorem calc_flags_of_len_nonpos {password : List Byte} (h : calc_len password ≤ 0) :
    calc_flags password = Flags.init := by
  unfold calc_flags
  rw [Int.toNat_eq_zero.mpr h]
  rfl

theorem calc_pool_raw_of_len_nonpos {password : List Byte} (h : calc_len password ≤ 0) :
    calc_pool_raw password = 0 := by
  unfold calc_pool_raw
  rw [calc_flags_of_len_nonpos h]
  rfl

theorem calc_pool_of_len_nonpos {password : List Byte} (h : calc_len password ≤ 0) :
    calc_pool password = 1 := by
  unfold calc_pool
  rw [calc_pool_raw_of_len_nonpos h]
  rfl

theorem nulFree_replicate {a : Byte} (ha : a ≠ 0) (n : Nat) :
    NulFree (List.replicate n a) := by
  intro c hc
  rw [List.eq_of_mem_replicate hc]
  exact ha

theorem calc_len_replicate {a : Byte} (ha : a ≠ 0) (n : Nat) :
    calc_len (List.replicate n a) = toInt32 n := by
  unfold calc_len
  rw [strlen_of_nulFree (nulFree_replicate ha n), List.length_replicate]

theorem toInt32_two_pow_31 : toInt32 (2 ^ 31) = -2 ^ 31 := by
  unfold toInt32
  norm_num

theorem toInt32_two_pow_32_succ : toInt32 (2 ^ 32 + 1) = 1 := by
  unfold toInt32
  norm_num

theorem present_replicate {n : Nat} (hn : n ≠ 0) (a : Byte) (P : Byte → Prop) :
    Present P (List.replicate n a) ↔ P a := by
  unfold Present
  constructor
  · rintro ⟨c, hc, hP⟩
    rw [List.eq_of_mem_replicate hc] at hP
    exact hP
  · intro hP
    exact ⟨a, List.mem_replicate.mpr ⟨hn, rfl⟩, hP⟩

theorem logb_two_32 : Real.logb 2 32 = 5 := by
  have h : (32 : ℝ) = 2 ^ (5 : ℕ) := by norm_num
  rw [h, Real.logb_pow, Real.logb_self_eq_one (by norm_num)]
  norm_num

theorem replicate_ne_nil {n : Nat} (hn : n ≠ 0) (a : Byte) : List.replicate n a ≠ [] := by
  intro h
  have hl := congrArg List.length h
  rw [List.length_replicate] at hl
  exact hn hl

theorem specPool_replicate {n : Nat} (hn : n ≠ 0) (a : Byte) :
    specPool (List.replicate n a) = specPool [a] := by
  have h1 : [a] = List.replicate 1 a := rfl
  unfold specPool
  rw [h1]
  simp only [present_replicate hn, present_replicate one_ne_zero]

theorem sameClasses_replicate {m n : Nat} (hm : m ≠ 0) (hn : n ≠ 0) (a : Byte) :
    SameClasses (List.replicate m a) (List.replicate n a) := by
  unfold SameClasses
  simp only [present_replicate hm, present_replicate hn, and_self]

/-- The pool of the specification depends on the classes present only. -/
theorem specPool_congr {s t : List Byte} (h : SameClasses s t) : specPool s = specPool t := by
  obtain ⟨h1, h2, h3, h4⟩ := h
  unfold specPool
  simp only [h1, h2, h3, h4]

/-- With a wrapped length that is not positive the result is zero. -/
theorem calc_entropy_of_len_nonpos {password : List Byte} (h : calc_len password ≤ 0) :
    calc_entropy (some password) = 0 := by
  simp only [calc_entropy]
  split_ifs with hz
  · rfl
  · rw [calc_pool_of_len_nonpos h]
    simp

theorem calc_len_long (a : Byte) (ha : a ≠ 0) :
    calc_len (List.replicate (2 ^ 31) a) = -2 ^ 31 := by
  rw [calc_len_replicate ha, toInt32_two_pow_31]

/-- A password of `2^32 + 1` equal bytes: `len` wraps to `1` and the loop
reads the first byte only. -/
theorem calc_flags_wrapped (a : Byte) (ha : a ≠ 0) :
    calc_flags (List.replicate (2 ^ 32 + 1) a) = classify Flags.init a := by
  unfold calc_flags
  rw [calc_len_replicate ha, toInt32_two_pow_32_succ, List.replicate_succ]
  rfl

theorem specPool_of_symbols {s : List Byte} (hne : s ≠ []) (hsym : ∀ c ∈ s, isSymbol c) :
    specPool s = 32 := by
  obtain ⟨a, t, rfl⟩ := List.exists_cons_of_ne_nil hne
  have h4 : Present isSymbol (a :: t) :=
    ⟨a, List.mem_cons_self a t, hsym a (List.mem_cons_self a t)⟩
  have h1 : ¬ Present isLower (a :: t) := fun ⟨c, hc, hl⟩ => (hsym c hc).1 hl
  have h2 : ¬ Present isUpper (a :: t) := fun ⟨c, hc, hl⟩ => (hsym c hc).2.1 hl
  have h3 : ¬ Present isDigit (a :: t) := fun ⟨c, hc, hl⟩ => (hsym c hc).2.2 hl
  unfold specPool
  rw [if_neg h1, if_neg h2, if_neg h3, if_pos h4]
  norm_num

theorem poolSum_eq_zero_of_no_flag {f : Flags} (h1 : f.hasLower = 0) (h2 : f.hasUpper = 0)
    (h3 : f.hasDigit = 0) (h4 : f.hasSymbol = 0) : poolSum f = 0 := by
  unfold poolSum
  simp [h1, h2, h3, h4]

/-! ## The checked operations never fail -/

theorem toInt32_lt (n : Nat) : toInt32 n < 2 ^ 31 := by
  unfold toInt32
  split_ifs with h
  · exact_mod_cast h
  · have : n % 2 ^ 32 < 2 ^ 32 := Nat.mod_lt _ (by norm_num)
    omega

theorem toInt32_le (n : Nat) : toInt32 n ≤ (n : Int) := by
  unfold toInt32
  have h1 : n % 2 ^ 32 ≤ n := Nat.mod_le _ _
  split_ifs <;> omega

theorem strlen_le_length (password : List Byte) : strlen password ≤ password.length := by
  unfold strlen
  exact (List.takeWhile_sublist _).length_le

/-- The number of iterations of the loop stays inside the string and inside
the range of `int`. -/
theorem calc_len_toNat_bounds (password : List Byte) :
    (calc_len password).toNat ≤ password.length ∧ (calc_len password).toNat < 2 ^ 31 := by
  have h1 := toInt32_lt (strlen password)
  have h2 := toInt32_le (strlen password)
  have h3 := strlen_le_length password
  unfold calc_len
  constructor <;> omega

theorem scanLoopChecked_eq (password : List Byte) :
    ∀ (n i : Nat) (f : Flags), i + n ≤ password.length → i + n < 2 ^ 31 →
      scanLoopChecked password n i f = some (scanLoop password n i f) := by
  intro n
  induction n with
  | zero => intro i f _ _; rfl
  | succ n ih =>
    intro i f h1 h2
    have hc : i ≤ password.length ∧ i + 1 < 2 ^ 31 := by constructor <;> omega
    rw [scanLoopChecked, if_pos hc, ih (i + 1) _ (by omega) (by omega), scanLoop]

theorem calc_entropy_checked_eq (input : Option (List Byte)) :
    calc_entropy_checked input = some (calc_entropy input) := by
  cases input with
  | none => rfl
  | some password =>
    obtain ⟨hb1, hb2⟩ := calc_len_toNat_bounds password
    have hscan := scanLoopChecked_eq password (calc_len password).toNat 0 Flags.init
      (by omega) (by omega)
    have hpos : 0 < clampPool (poolSum (scanLoop password (calc_len password).toNat 0
        Flags.init)) := by
      have := clampPool_ge_one (poolSum (scanLoop password (calc_len password).toNat 0
        Flags.init))
      omega
    simp only [calc_entropy_checked, calc_entropy]
    split_ifs with hz
    · rfl
    · rw [hscan]
      simp only [logChecked, if_pos hpos]
      rfl

/-! ## One byte -/

theorem bucketCount_eq_one (c : Byte) : bucketCount c = 1 := by
  unfold bucketCount isSymbol
  by_cases h1 : isLower c
  · simp [h1, not_isUpper_of_isLower h1, not_isDigit_of_isLower h1]
  · by_cases h2 : isUpper c
    · simp [h1, h2, not_isDigit_of_isUpper h2]
    · by_cases h3 : isDigit c <;> simp [h1, h2, h3]

theorem classify_eq_classifyUnordered (f : Flags) (c : Byte) :
    classify f c = classifyUnordered f c := by
  unfold classify classifyUnordered isSymbol
  by_cases h1 : isLower c
  · simp [h1, not_isUpper_of_isLower h1, not_isDigit_of_isLower h1]
  · by_cases h2 : isUpper c
    · simp [h1, h2, not_isDigit_of_isUpper h2]
    · by_cases h3 : isDigit c <;> simp [h1, h2, h3]

theorem present_singleton (P : Byte → Prop) (c : Byte) : Present P [c] ↔ P c := by
  simp [Present]

theorem specPool_singleton (c : Byte) :
    specPool [c] = if isLower c ∨ isUpper c then 26 else if isDigit c then 10 else 32 := by
  unfold specPool isSymbol
  simp only [present_singleton]
  by_cases h1 : isLower c
  · simp [h1, not_isUpper_of_isLower h1, not_isDigit_of_isLower h1]
  · by_cases h2 : isUpper c
    · simp [h1, h2, not_isDigit_of_isUpper h2]
    · by_cases h3 : isDigit c <;> simp [h1, h2, h3]

/-! ## Calls on a stale frame -/

theorem frameLoop_spec (password : List Byte) :
    ∀ (n : Nat) (fr : Frame), 0 ≤ fr.i →
      (frameLoop password n fr).flags = scanLoop password n fr.i.toNat fr.flags
        ∧ (frameLoop password n fr).len = fr.len
        ∧ (frameLoop password n fr).pool = fr.pool := by
  intro n
  induction n with
  | zero => intro fr _; exact ⟨rfl, rfl, rfl⟩
  | succ n ih =>
    intro fr hi
    have hstep : (fr.i + 1).toNat = fr.i.toNat + 1 := by omega
    have h := ih { fr with c := password.getD fr.i.toNat 0,
                           flags := classify fr.flags (password.getD fr.i.toNat 0),
                           i := fr.i + 1 } (by show 0 ≤ fr.i + 1; omega)
    simp only [hstep] at h
    exact h

theorem calc_entropy_call_fst (stale : Frame) (input : Option (List Byte)) :
    (calc_entropy_call stale input).1 = calc_entropy input := by
  cases input with
  | none => rfl
  | some password =>
    simp only [calc_entropy_call, calc_entropy]
    by_cases hz : calc_len password = 0
    · have hz' : toInt32 (strlen password) = 0 := hz
      simp only [hz, hz', if_true]
    · have hz' : ¬ toInt32 (strlen password) = 0 := hz
      simp only [hz, hz', if_false]
      obtain ⟨hf, hl, hp⟩ := frameLoop_spec password (toInt32 (strlen password) - 0).toNat
        { stale with len := toInt32 (strlen password), pool := 0, flags := ⟨0, 0, 0, 0⟩,
                     i := 0 } (le_refl 0)
      simp only [Int.toNat_zero, sub_zero] at hf hl hp
      simp only [sub_zero, hf, hl, hp]
      rfl

/-! ## The bytes behind the terminating NUL -/

/-- Cutting a buffer at its first NUL leaves the length of its string as it is. -/
theorem strlen_takeWhile (password : List Byte) :
    strlen (password.takeWhile (fun c => c != 0)) = strlen password := by
  unfold strlen
  rw [List.takeWhile_idem]

theorem getD_takeWhile (password : List Byte) (i : Nat) (h : i < strlen password) :
    (password.takeWhile (fun c => c != 0)).getD i 0 = password.getD i 0 := by
  have hsplit := List.takeWhile_append_dropWhile (fun c : Byte => c != 0) password
  have hr : password.getD i 0
      = (password.takeWhile (fun c => c != 0) ++ password.dropWhile (fun c => c != 0)).getD i 0 := by
    rw [hsplit]
  rw [hr, List.getD_append _ _ _ _ h]

theorem scanLoop_takeWhile (password : List Byte) :
    ∀ (n i : Nat) (f : Flags), i + n ≤ strlen password →
      scanLoop (password.takeWhile (fun c => c != 0)) n i f = scanLoop password n i f := by
  intro n
  induction n with
  | zero => intro i f _; rfl
  | succ n ih =>
    intro i f h
    rw [scanLoop, scanLoop, getD_takeWhile password i (by omega), ih (i + 1) _ (by omega)]

theorem calc_entropy_takeWhile (password : List Byte) :
    calc_entropy (some (password.takeWhile (fun c => c != 0))) = calc_entropy (some password) := by
  have hlen : calc_len (password.takeWhile (fun c => c != 0)) = calc_len password := by
    unfold calc_len
    rw [strlen_takeWhile]
  have hle : (calc_len password).toNat ≤ strlen password := by
    have := toInt32_le (strlen password)
    unfold calc_len
    omega
  have hflags : calc_flags (password.takeWhile (fun c => c != 0)) = calc_flags password := by
    unfold calc_flags
    rw [hlen, scanLoop_takeWhile password _ 0 _ (by omega)]
  simp only [calc_entropy, calc_pool, calc_pool_raw, hlen, hflags]

/-! ## Bounds on the pool, and the pool of a concatenation -/

theorem specPool_le (s : List Byte) : specPool s ≤ 94 := by
  unfold specPool
  split_ifs <;> norm_num

theorem present_append (P : Byte → Prop) (s t : List Byte) :
    Present P (s ++ t) ↔ (Present P s ∨ Present P t) := by
  unfold Present
  constructor
  · rintro ⟨c, hc, hP⟩
    rcases List.mem_append.mp hc with h | h
    · exact Or.inl ⟨c, h, hP⟩
    · exact Or.inr ⟨c, h, hP⟩
  · rintro (⟨c, hc, hP⟩ | ⟨c, hc, hP⟩)
    · exact ⟨c, List.mem_append.mpr (Or.inl hc), hP⟩
    · exact ⟨c, List.mem_append.mpr (Or.inr hc), hP⟩

theorem indicator_mono {p q : Prop} [Decidable p] [Decidable q] (h : p → q) :
    (if p then (1 : Int) else 0) ≤ (if q then (1 : Int) else 0) := by
  by_cases hp : p
  · rw [if_pos hp, if_pos (h hp)]
  · rw [if_neg hp]
    split_ifs <;> norm_num

/-- The pool of the specification grows with the set of classes present. -/
theorem specPool_mono {s t : List Byte} (h : ∀ P : Byte → Prop, Present P s → Present P t) :
    specPool s ≤ specPool t := by
  have h1 := indicator_mono (h isLower)
  have h2 := indicator_mono (h isUpper)
  have h3 := indicator_mono (h isDigit)
  have h4 := indicator_mono (h isSymbol)
  unfold specPool
  omega

theorem specPool_le_append_left (s t : List Byte) : specPool s ≤ specPool (s ++ t) :=
  specPool_mono (fun P h => (present_append P s t).mpr (Or.inl h))

theorem nulFree_append {s t : List Byte} (hs : NulFree s) (ht : NulFree t) :
    NulFree (s ++ t) := by
  intro c hc
  rcases List.mem_append.mp hc with h | h
  · exact hs c h
  · exact ht c h

/-- The base-2 logarithm of a pool is monotone on pools that are at least `1`. -/
theorem logb_pool_mono {a b : Int} (ha : 1 ≤ a) (hab : a ≤ b) :
    Real.logb 2 ((a : Int) : ℝ) ≤ Real.logb 2 ((b : Int) : ℝ) := by
  have h0 : (0 : ℝ) < ((a : Int) : ℝ) := by exact_mod_cast (by omega : (0 : Int) < a)
  have h1 : ((a : Int) : ℝ) ≤ ((b : Int) : ℝ) := by exact_mod_cast hab
  exact Real.logb_le_logb_of_le (by norm_num) h0 h1

theorem logb_pool_pos {a : Int} (ha : 10 ≤ a) : 0 < Real.logb 2 ((a : Int) : ℝ) := by
  have h1 : (1 : ℝ) < ((a : Int) : ℝ) := by exact_mod_cast (by omega : (1 : Int) < a)
  exact Real.logb_pos (by norm_num) h1

/-- A non-empty password shorter than `2^31` bytes gets a positive result. -/
theorem calc_entropy_pos_of_short {s : List Byte} (hne : s ≠ []) (hnul : NulFree s)
    (hlen : s.length < 2 ^ 31) : 0 < calc_entropy (some s) := by
  rw [calc_entropy_of_short hne hnul hlen, calc_pool_of_short hne hnul hlen]
  have hl : (0 : ℝ) < (s.length : ℝ) := by exact_mod_cast List.length_pos.mpr hne
  exact mul_pos hl (logb_pool_pos (specPool_ge hne))

theorem calc_entropy_nil : calc_entropy (some []) = 0 := by
  have h : calc_len [] = 0 := by decide
  simp only [calc_entropy, if_pos h]

/-! ## The result on short passwords, in the words of the specification -/

theorem calc_len_of_nulFree {s : List Byte} (h : NulFree s) :
    calc_len s = toInt32 s.length := by
  unfold calc_len
  rw [strlen_of_nulFree h]

/-- On a password shorter than `2^31` bytes, empty or not, the result is the
number of bytes times the base-2 logarithm of the specification's pool. -/
theorem calc_entropy_short_spec {s : List Byte} (hnul : NulFree s) (hlen : s.length < 2 ^ 31) :
    calc_entropy (some s) = (s.length : ℝ) * Real.logb 2 ((specPool s : Int) : ℝ) := by
  by_cases hne : s = []
  · rw [hne, calc_entropy_nil]
    simp
  · rw [calc_entropy_of_short hne hnul hlen, calc_pool_of_short hne hnul hlen]

theorem length_mul_logb_mono {s u : List Byte} (h : specPool s ≤ specPool u) :
    (s.length : ℝ) * Real.logb 2 ((specPool s : Int) : ℝ)
      ≤ (s.length : ℝ) * Real.logb 2 ((specPool u : Int) : ℝ) := by
  by_cases hne : s = []
  · rw [hne]
    simp
  · have h1 : 1 ≤ specPool s := le_trans (by norm_num) (specPool_ge hne)
    exact mul_le_mul_of_nonneg_left (logb_pool_mono h1 h) (Nat.cast_nonneg _)

/-- A run of `2^31` equal bytes, however it is put together, gets `0`. -/
theorem calc_entropy_of_length_two_pow_31 {s : List Byte} (hnul : NulFree s)
    (hlen : s.length = 2 ^ 31) : calc_entropy (some s) = 0 := by
  apply calc_entropy_of_len_nonpos
  rw [calc_len_of_nulFree hnul, hlen, toInt32_two_pow_31]
  norm_num

/-! ## Permutations, and lengths past the range of `int` -/

theorem present_perm {s t : List Byte} (h : List.Perm s t) (P : Byte → Prop) :
    Present P s ↔ Present P t := by
  unfold Present
  constructor
  · rintro ⟨c, hc, hP⟩
    exact ⟨c, h.mem_iff.mp hc, hP⟩
  · rintro ⟨c, hc, hP⟩
    exact ⟨c, h.mem_iff.mpr hc, hP⟩

theorem sameClasses_of_perm {s t : List Byte} (h : List.Perm s t) : SameClasses s t :=
  ⟨present_perm h _, present_perm h _, present_perm h _, present_perm h _⟩

theorem nulFree_of_perm {s t : List Byte} (h : List.Perm s t) (hs : NulFree s) : NulFree t :=
  fun c hc => hs c (h.mem_iff.mpr hc)

theorem nulFree_cons {a : Byte} {l : List Byte} (ha : a ≠ 0) (hl : NulFree l) :
    NulFree (a :: l) := by
  intro c hc
  rcases List.mem_cons.mp hc with h | h
  · rw [h]; exact ha
  · exact hl c h

/-- Equal length and equal classes give equal results below `2^31` bytes. -/
theorem calc_entropy_congr_short {s t : List Byte} (hs : NulFree s) (ht : NulFree t)
    (hlen : s.length < 2 ^ 31) (hl : s.length = t.length) (hcls : SameClasses s t) :
    calc_entropy (some t) = calc_entropy (some s) := by
  rw [calc_entropy_short_spec hs hlen, calc_entropy_short_spec ht (by omega),
    specPool_congr hcls, hl]

/-- A password of `2^32 + 1` bytes: `len` wraps to `1`, the loop reads the
first byte and no other, and the result is the logarithm of its pool. -/
theorem calc_entropy_wrapped_one {a : Byte} {l : List Byte} (h : NulFree (a :: l))
    (hl : l.length = 2 ^ 32) :
    calc_entropy (some (a :: l))
      = Real.logb 2 ((clampPool (poolSum (classify Flags.init a)) : Int) : ℝ) := by
  have hlen : calc_len (a :: l) = 1 := by
    rw [calc_len_of_nulFree h, List.length_cons, hl, toInt32_two_pow_32_succ]
  have hflags : calc_flags (a :: l) = classify Flags.init a := by
    unfold calc_flags
    rw [hlen]
    rfl
  have hz : calc_len (a :: l) ≠ 0 := by rw [hlen]; norm_num
  simp only [calc_entropy, if_neg hz, calc_pool, calc_pool_raw, hflags, hlen, Real.logb]
  norm_num

theorem toInt32_two_pow_32 : toInt32 (2 ^ 32) = 0 := by
  unfold toInt32
  norm_num

/-- When `len` is positive the pool is the specification's pool of the bytes
the loop has read, the first `len` of them. -/
theorem calc_pool_of_len_pos (s : List Byte) (hpos : 0 < calc_len s) :
    calc_pool s = specPool (s.take (calc_len s).toNat)
      ∧ 10 ≤ specPool (s.take (calc_len s).toNat)
      ∧ specPool (s.take (calc_len s).toNat) ≤ specPool s := by
  obtain ⟨hb, _⟩ := calc_len_toNat_bounds s
  have hk : 0 < (calc_len s).toNat := by omega
  have hne : s.take (calc_len s).toNat ≠ [] := by
    intro h
    have hl := congrArg List.length h
    rw [List.length_take, List.length_nil] at hl
    omega
  have hge := specPool_ge hne
  have hraw : calc_pool_raw s = specPool (s.take (calc_len s).toNat) := by
    unfold calc_pool_raw calc_flags
    rw [scanLoop_eq_foldl s _ 0 _ (by omega), List.drop_zero, poolSum_foldl]
  refine ⟨?_, hge, ?_⟩
  · unfold calc_pool clampPool
    rw [hraw, if_neg (by omega)]
  · have h := specPool_le_append_left (s.take (calc_len s).toNat) (s.drop (calc_len s).toNat)
    rw [List.take_append_drop] at h
    exact h

/-- From `2^31` bytes on the result stays below the number of bytes times the
base-2 logarithm of the specification's pool. -/
theorem calc_entropy_lt_of_long {s : List Byte} (hnul : NulFree s)
    (hlong : 2 ^ 31 ≤ s.length) :
    calc_entropy (some s) < (s.length : ℝ) * Real.logb 2 ((specPool s : Int) : ℝ) := by
  have hne : s ≠ [] := by
    intro h
    rw [h] at hlong
    simp at hlong
  have hL := logb_pool_pos (specPool_ge hne)
  have hn : (0 : ℝ) < (s.length : ℝ) := by exact_mod_cast List.length_pos.mpr hne
  rcases le_or_lt (calc_len s) 0 with hle | hpos
  · rw [calc_entropy_of_len_nonpos hle]
    exact mul_pos hn hL
  · obtain ⟨hp, h10, hmono⟩ := calc_pool_of_len_pos s hpos
    have hlt : calc_len s < (s.length : Int) := by
      have := toInt32_lt s.length
      rw [calc_len_of_nulFree hnul]
      omega
    have hltR : (calc_len s : ℝ) < (s.length : ℝ) := by exact_mod_cast hlt
    have hposR : (0 : ℝ) < (calc_len s : ℝ) := by exact_mod_cast hpos
    have hz : calc_len s ≠ 0 := by omega
    have hE : calc_entropy (some s)
        = (calc_len s : ℝ) * Real.logb 2 ((specPool (s.take (calc_len s).toNat) : Int) : ℝ) := by
      simp only [calc_entropy, if_neg hz, hp, Real.logb]
    have hlog := logb_pool_mono (by omega : (1 : Int) ≤ specPool (s.take (calc_len s).toNat))
      hmono
    rw [hE]
    calc (calc_len s : ℝ) * Real.logb 2 ((specPool (s.take (calc_len s).toNat) : Int) : ℝ)
        ≤ (calc_len s : ℝ) * Real.logb 2 ((specPool s : Int) : ℝ) :=
          mul_le_mul_of_nonneg_left hlog (le_of_lt hposR)
      _ < (s.length : ℝ) * Real.logb 2 ((specPool s : Int) : ℝ) :=
          mul_lt_mul_of_pos_right hltR hL

/-! ## Evaluation on small inputs -/

theorem calc_pool_Ab1 : calc_pool [65, 98, 49, 33] = 94 := by decide

theorem calc_len_Ab1 : calc_len [65, 98, 49, 33] = 4 := by decide

theorem calc_pool_utf8 : calc_pool [0xC3, 0xA9] = 32 := by decide

/-- A buffer with a NUL inside holds the string in front of it. -/
theorem calc_len_embedded_nul : calc_len [97, 0, 97, 97] = 1 := by decide

/-! ## The claims -/

/-- C1: for every non-empty password (a NUL-free byte sequence whose length
fits in a signed 32-bit `int`) `calc_entropy` returns the number of bytes times
the base-2 logarithm of the pool computed from the character-class flags. -/
theorem C1_entropy_is_length_times_log2_pool (s : List Byte) (hne : s ≠ [])
    (hnul : NulFree s) (hlen : s.length < 2 ^ 31) :
    calc_entropy (some s) = (s.length : ℝ) * Real.logb 2 ((poolSum (calc_flags s) : Int) : ℝ) := by
  have hp : calc_pool s = poolSum (calc_flags s) := by
    rw [calc_pool_of_short hne hnul hlen, ← calc_pool_raw_of_short hnul hlen]
    rfl
  rw [calc_entropy_of_short hne hnul hlen, hp]

/-- C1, on the password `Ab1!`: the result is `4 * log2(94)`. -/
theorem C1_witness_Ab1 :
    calc_entropy (some [65, 98, 49, 33]) = 4 * Real.logb 2 94 := by
  have h := C1_entropy_is_length_times_log2_pool [65, 98, 49, 33]
    (by decide) (by decide) (by decide)
  have hp : poolSum (calc_flags [65, 98, 49, 33]) = 94 := by decide
  rw [hp] at h
  rw [h]
  norm_num

/-- C2 as stated fails: a password of `2^31` letters `a` is non-empty and
NUL-free, its lowercase class is present, yet `len` wraps to a negative value,
the scan does not run and the pool used by `calc_entropy` is `1`, not `26`. -/
theorem C2_counterexample_wrapped_length :
    List.replicate (2 ^ 31) (97 : Byte) ≠ []
      ∧ NulFree (List.replicate (2 ^ 31) (97 : Byte))
      ∧ calc_pool (List.replicate (2 ^ 31) (97 : Byte)) = 1
      ∧ specPool (List.replicate (2 ^ 31) (97 : Byte)) = 26
      ∧ calc_pool (List.replicate (2 ^ 31) (97 : Byte))
          ≠ specPool (List.replicate (2 ^ 31) (97 : Byte)) := by
  have ha : (97 : Byte) ≠ 0 := by decide
  have hn : (2 ^ 31 : Nat) ≠ 0 := by norm_num
  have hlen : calc_len (List.replicate (2 ^ 31) (97 : Byte)) ≤ 0 := by
    rw [calc_len_long 97 ha]; norm_num
  have hp : calc_pool (List.replicate (2 ^ 31) (97 : Byte)) = 1 :=
    calc_pool_of_len_nonpos hlen
  have hs : specPool (List.replicate (2 ^ 31) (97 : Byte)) = 26 := by
    rw [specPool_replicate hn]; decide
  refine ⟨replicate_ne_nil hn 97, nulFree_replicate ha _, hp, hs, ?_⟩
  rw [hp, hs]
  decide

/-- C2, amended: for every non-empty password shorter than `2^31` bytes the
pool used by `calc_entropy` is `26` if some byte is in a-z, plus `26` if some
byte is in A-Z, plus `10` if some byte is in 0-9, plus `32` if some byte is in
none of these ranges, each class counted once. -/
theorem C2_pool_is_sum_of_class_contributions (s : List Byte) (hne : s ≠ [])
    (hnul : NulFree s) (hlen : s.length < 2 ^ 31) :
    calc_pool s = specPool s :=
  calc_pool_of_short hne hnul hlen

/-- C2, on `aaaa` and `0000`: the pools are `26` and `10`. -/
theorem C2_witness_aaaa_0000 :
    calc_pool [97, 97, 97, 97] = 26 ∧ calc_pool [48, 48, 48, 48] = 10 :=
  ⟨(C2_pool_is_sum_of_class_contributions [97, 97, 97, 97]
      (by decide) (by decide) (by decide)).trans (by decide),
    (C2_pool_is_sum_of_class_contributions [48, 48, 48, 48]
      (by decide) (by decide) (by decide)).trans (by decide)⟩

/-- C3: `calc_entropy` returns `0.0` on the null pointer and on the empty
string, whether the buffer ends at the terminating NUL or goes on behind it. -/
theorem C3_absent_or_empty_is_zero (rest : List Byte) :
    calc_entropy none = 0 ∧ calc_entropy (some []) = 0
      ∧ calc_entropy (some (0 :: rest)) = 0 := by
  refine ⟨rfl, ?_, ?_⟩
  · have h : calc_len [] = 0 := by decide
    simp only [calc_entropy, if_pos h]
  · have h : calc_len (0 :: rest) = 0 := by
      have h0 : strlen (0 :: rest) = 0 := by
        unfold strlen
        rw [List.takeWhile_cons_of_neg (by decide)]
        rfl
      unfold calc_len
      rw [h0]
      decide
    simp only [calc_entropy, if_pos h]

/-- C4: for every input, null pointer or any byte sequence, `calc_entropy`
is not negative. -/
theorem C4_never_negative (input : Option (List Byte)) : 0 ≤ calc_entropy input := by
  cases input with
  | none => exact le_of_eq rfl
  | some password =>
    simp only [calc_entropy]
    split_ifs with hz
    · exact le_refl 0
    · rcases lt_or_gt_of_ne hz with hneg | hpos
      · rw [calc_pool_of_len_nonpos (le_of_lt hneg)]
        simp
      · have hl : (0 : ℝ) ≤ (calc_len password : ℝ) := by exact_mod_cast le_of_lt hpos
        have hp : (1 : ℝ) ≤ ((calc_pool password : Int) : ℝ) := by
          exact_mod_cast calc_pool_ge_one password
        have h2 : (0 : ℝ) < Real.log 2 := Real.log_pos (by norm_num)
        exact mul_nonneg hl (div_nonneg (Real.log_nonneg hp) (le_of_lt h2))

/-- C5 as stated fails: `aa` is shorter than the password of `2^32 + 1`
letters `a`, both have the lowercase class alone and the pool `26`, yet the
longer one gets the smaller result, because its `len` wraps to `1`. -/
theorem C5_counterexample_wrapped_length :
    ([97, 97] : List Byte) ≠ [] ∧ NulFree [97, 97]
      ∧ NulFree (List.replicate (2 ^ 32 + 1) (97 : Byte))
      ∧ SameClasses [97, 97] (List.replicate (2 ^ 32 + 1) (97 : Byte))
      ∧ 1 < calc_pool [97, 97]
      ∧ 1 < calc_pool (List.replicate (2 ^ 32 + 1) (97 : Byte))
      ∧ ([97, 97] : List Byte).length < (List.replicate (2 ^ 32 + 1) (97 : Byte)).length
      ∧ calc_entropy (some (List.replicate (2 ^ 32 + 1) (97 : Byte)))
          < calc_entropy (some [97, 97]) := by
  have ha : (97 : Byte) ≠ 0 := by decide
  have hpool : calc_pool (List.replicate (2 ^ 32 + 1) (97 : Byte)) = 26 := by
    unfold calc_pool calc_pool_raw
    rw [calc_flags_wrapped 97 ha]
    decide
  have hlen : calc_len (List.replicate (2 ^ 32 + 1) (97 : Byte)) = 1 := by
    rw [calc_len_replicate ha, toInt32_two_pow_32_succ]
  have hL : 0 < Real.logb 2 26 := Real.logb_pos (by norm_num) (by norm_num)
  have ht : calc_entropy (some (List.replicate (2 ^ 32 + 1) (97 : Byte))) = Real.logb 2 26 := by
    simp only [calc_entropy, hlen, hpool, Real.logb]
    norm_num
  have hs : calc_entropy (some [97, 97]) = 2 * Real.logb 2 26 := by
    have h2 : calc_pool [97, 97] = 26 := by decide
    rw [calc_entropy_of_short (by decide) (by decide) (by decide), h2]
    norm_num
  refine ⟨by decide, by decide, nulFree_replicate ha _, ?_, by decide, ?_, ?_, ?_⟩
  · exact sameClasses_replicate (m := 2) (by norm_num) (by norm_num) 97
  · rw [hpool]; norm_num
  · rw [List.length_replicate]; norm_num
  · rw [ht, hs]; linarith

/-- C5, amended: for two non-empty passwords shorter than `2^31` bytes with
exactly the same character classes present and a pool greater than `1`, the
shorter one gets the strictly smaller result. -/
theorem C5_monotone_in_length (s t : List Byte) (hne : s ≠ []) (hs : NulFree s)
    (ht : NulFree t) (hlen : t.length < 2 ^ 31) (hcls : SameClasses s t)
    (hpool : 1 < calc_pool s) (hlt : s.length < t.length) :
    calc_entropy (some s) < calc_entropy (some t) := by
  have hne' : t ≠ [] := by
    intro h
    rw [h] at hlt
    exact Nat.not_lt_zero _ hlt
  have hslen : s.length < 2 ^ 31 := lt_trans hlt hlen
  have hp : calc_pool t = calc_pool s := by
    rw [calc_pool_of_short hne' ht hlen, calc_pool_of_short hne hs hslen, specPool_congr hcls]
  rw [calc_entropy_of_short hne hs hslen, calc_entropy_of_short hne' ht hlen, hp]
  have hL : 0 < Real.logb 2 ((calc_pool s : Int) : ℝ) :=
    Real.logb_pos (by norm_num) (by exact_mod_cast hpool)
  have hc : (s.length : ℝ) < (t.length : ℝ) := by exact_mod_cast hlt
  exact mul_lt_mul_of_pos_right hc hL

/-- C5, on `aa` and `aaa`. -/
theorem C5_witness_aa_aaa :
    calc_entropy (some [97, 97]) < calc_entropy (some [97, 97, 97]) :=
  C5_monotone_in_length [97, 97] [97, 97, 97] (by decide) (by decide) (by decide)
    (by decide) (by decide) (by decide) (by decide)

/-- C6 as stated fails: the password of `2^31` bytes `!` consists of symbol
bytes only, yet its pool is `1` and its result `0`, not `5 * 2^31`. -/
theorem C6_counterexample_wrapped_length :
    List.replicate (2 ^ 31) (33 : Byte) ≠ []
      ∧ NulFree (List.replicate (2 ^ 31) (33 : Byte))
      ∧ (∀ c ∈ List.replicate (2 ^ 31) (33 : Byte), isSymbol c)
      ∧ calc_pool (List.replicate (2 ^ 31) (33 : Byte)) = 1
      ∧ calc_entropy (some (List.replicate (2 ^ 31) (33 : Byte))) = 0
      ∧ calc_entropy (some (List.replicate (2 ^ 31) (33 : Byte)))
          ≠ 5 * ((List.replicate (2 ^ 31) (33 : Byte)).length : ℝ) := by
  have ha : (33 : Byte) ≠ 0 := by decide
  have hn : (2 ^ 31 : Nat) ≠ 0 := by norm_num
  have hlen : calc_len (List.replicate (2 ^ 31) (33 : Byte)) ≤ 0 := by
    rw [calc_len_long 33 ha]; norm_num
  have he := calc_entropy_of_len_nonpos hlen
  refine ⟨replicate_ne_nil hn 33, nulFree_replicate ha _, ?_, calc_pool_of_len_nonpos hlen,
    he, ?_⟩
  · intro c hc
    rw [List.eq_of_mem_replicate hc]
    decide
  · rw [he, List.length_replicate]
    norm_num

/-- C6, amended: a byte outside a-z, A-Z and 0-9 sets the symbol flag and no
other, and for every non-empty password shorter than `2^31` bytes that
consists of such bytes only, `len` is the number of bytes, the pool is `32`
and the result is `5` times the number of bytes. -/
theorem C6_symbol_only_password (s : List Byte) (hne : s ≠ []) (hnul : NulFree s)
    (hlen : s.length < 2 ^ 31) (hsym : ∀ c ∈ s, isSymbol c) :
    (∀ c ∈ s, ∀ f : Flags, classify f c = { f with hasSymbol := 1 })
      ∧ calc_len s = (s.length : Int)
      ∧ calc_pool s = 32
      ∧ calc_entropy (some s) = 5 * (s.length : ℝ) := by
  have hp : calc_pool s = 32 := by
    rw [calc_pool_of_short hne hnul hlen, specPool_of_symbols hne hsym]
  refine ⟨?_, calc_len_of_short hnul hlen, hp, ?_⟩
  · intro c hc f
    obtain ⟨h1, h2, h3⟩ := hsym c hc
    unfold classify
    rw [if_neg h1, if_neg h2, if_neg h3]
  · rw [calc_entropy_of_short hne hnul hlen, hp]
    have h32 : (((32 : Int) : ℝ)) = 32 := by norm_num
    rw [h32, logb_two_32]
    ring

/-- C6, on the two bytes `C3 A9` that encode one non-ASCII character in
UTF-8: the result is `10`. -/
theorem C6_witness_utf8 : calc_entropy (some [0xC3, 0xA9]) = 10 := by
  have hsym : ∀ c ∈ ([0xC3, 0xA9] : List Byte), isSymbol c := by
    intro c hc
    simp only [List.mem_cons, List.mem_singleton, List.not_mem_nil, or_false] at hc
    rcases hc with rfl | rfl <;> decide
  have h := (C6_symbol_only_password [0xC3, 0xA9] (by decide) (by decide) (by decide)
    hsym).2.2.2
  rw [h]
  norm_num

/-- C7 as stated fails: for the non-empty password of `2^31` letters `a` no
flag is set, the pool in front of the clamp is `0`, and the branch
`if (pool <= 0) pool = 1` is taken. -/
theorem C7_counterexample_wrapped_length :
    List.replicate (2 ^ 31) (97 : Byte) ≠ []
      ∧ NulFree (List.replicate (2 ^ 31) (97 : Byte))
      ∧ calc_len (List.replicate (2 ^ 31) (97 : Byte)) ≠ 0
      ∧ calc_flags (List.replicate (2 ^ 31) (97 : Byte)) = ⟨0, 0, 0, 0⟩
      ∧ calc_pool_raw (List.replicate (2 ^ 31) (97 : Byte)) ≤ 0
      ∧ calc_pool (List.replicate (2 ^ 31) (97 : Byte)) = 1 := by
  have ha : (97 : Byte) ≠ 0 := by decide
  have hn : (2 ^ 31 : Nat) ≠ 0 := by norm_num
  have hl := calc_len_long 97 ha
  have hlen : calc_len (List.replicate (2 ^ 31) (97 : Byte)) ≤ 0 := by
    rw [hl]; norm_num
  refine ⟨replicate_ne_nil hn 97, nulFree_replicate ha _, ?_, calc_flags_of_len_nonpos hlen,
    le_of_eq (calc_pool_raw_of_len_nonpos hlen), calc_pool_of_len_nonpos hlen⟩
  rw [hl]
  norm_num

/-- C7, amended: for every non-empty password shorter than `2^31` bytes at
least one of the four flags is set, so the pool is positive in front of the
clamp and the branch `if (pool <= 0) pool = 1` is not taken. -/
theorem C7_clamp_not_taken (s : List Byte) (hne : s ≠ []) (hnul : NulFree s)
    (hlen : s.length < 2 ^ 31) :
    ((calc_flags s).hasLower ≠ 0 ∨ (calc_flags s).hasUpper ≠ 0
        ∨ (calc_flags s).hasDigit ≠ 0 ∨ (calc_flags s).hasSymbol ≠ 0)
      ∧ ¬ (calc_pool_raw s ≤ 0)
      ∧ clampPool (calc_pool_raw s) = calc_pool_raw s := by
  have hraw : 10 ≤ calc_pool_raw s := by
    rw [calc_pool_raw_of_short hnul hlen]
    exact specPool_ge hne
  have hpos : ¬ (calc_pool_raw s ≤ 0) := by omega
  refine ⟨?_, hpos, ?_⟩
  · by_contra hno
    simp only [not_or, not_not] at hno
    obtain ⟨h1, h2, h3, h4⟩ := hno
    have hz : calc_pool_raw s = 0 := poolSum_eq_zero_of_no_flag h1 h2 h3 h4
    omega
  · unfold clampPool
    rw [if_neg hpos]

/-- C7, on the one-byte password `a`. -/
theorem C7_witness_a :
    ((calc_flags [97]).hasLower ≠ 0 ∨ (calc_flags [97]).hasUpper ≠ 0
        ∨ (calc_flags [97]).hasDigit ≠ 0 ∨ (calc_flags [97]).hasSymbol ≠ 0)
      ∧ ¬ (calc_pool_raw [97] ≤ 0)
      ∧ clampPool (calc_pool_raw [97]) = calc_pool_raw [97] :=
  C7_clamp_not_taken [97] (by decide) (by decide) (by decide)

/-- C8: `calc_entropy` is total and its logarithm is always defined: on every
input, null pointer or any byte sequence, the function with checked reads,
checked counter and checked logarithm yields a number, the one `calc_entropy`
returns, and for every buffer the argument `pool` of the logarithm on line 23
is an integer that is at least `1`. -/
theorem C8_total_and_log_defined (input : Option (List Byte)) (password : List Byte) :
    calc_entropy_checked input = some (calc_entropy input)
      ∧ 1 ≤ calc_pool password
      ∧ logChecked (calc_pool password) = some (Real.log ((calc_pool password : Int) : ℝ)) := by
  have hp := calc_pool_ge_one password
  refine ⟨calc_entropy_checked_eq input, hp, ?_⟩
  unfold logChecked
  rw [if_pos (by omega)]

/-- C9: calling `calc_entropy` twice on the same input yields the identical
result: a second call, started on the frame the first call left behind,
returns what the first returned; the stale content of the frame does not
enter the result, which is that of the pure function `calc_entropy`; and of
the buffer only the bytes in front of the terminating NUL enter it. -/
theorem C9_same_input_same_result (stale other : Frame) (input : Option (List Byte))
    (password : List Byte) :
    (calc_entropy_call (calc_entropy_call stale input).2 input).1
        = (calc_entropy_call stale input).1
      ∧ (calc_entropy_call stale input).1 = (calc_entropy_call other input).1
      ∧ (calc_entropy_call stale input).1 = calc_entropy input
      ∧ calc_entropy (some (password.takeWhile (fun c => c != 0)))
          = calc_entropy (some password) := by
  refine ⟨?_, ?_, calc_entropy_call_fst stale input, calc_entropy_takeWhile password⟩
  · rw [calc_entropy_call_fst, calc_entropy_call_fst]
  · rw [calc_entropy_call_fst, calc_entropy_call_fst]

/-- C10: every byte `0..255` falls in exactly one of the four buckets, so the
if / else-if chain sets the flags that the four tests set when applied in no
order; and a one-byte password gets `log2(26)` if the byte is a letter,
`log2(10)` if it is a digit and `5` otherwise. -/
theorem C10_buckets_partition_bytes (c : Byte) (hc : c ≠ 0) :
    (∀ b : Byte, bucketCount b = 1 ∧ ∀ f : Flags, classify f b = classifyUnordered f b)
      ∧ calc_entropy (some [c])
          = if isLower c ∨ isUpper c then Real.logb 2 26
            else if isDigit c then Real.logb 2 10 else 5 := by
  refine ⟨fun b => ⟨bucketCount_eq_one b, fun f => classify_eq_classifyUnordered f b⟩, ?_⟩
  have hnul : NulFree [c] := by
    intro b hb
    rw [List.mem_singleton] at hb
    rw [hb]
    exact hc
  have hne : [c] ≠ [] := List.cons_ne_nil c []
  have hlen : [c].length < 2 ^ 31 := by
    rw [List.length_singleton]; norm_num
  rw [calc_entropy_of_short hne hnul hlen, calc_pool_of_short hne hnul hlen,
    specPool_singleton, List.length_singleton]
  split_ifs
  · norm_num
  · norm_num
  · have h32 : (((32 : Int) : ℝ)) = 32 := by norm_num
    rw [h32, logb_two_32]
    norm_num

/-- C10, on the one-byte passwords `a`, `7` and `!`. -/
theorem C10_witness_a_7_bang :
    calc_entropy (some [97]) = Real.logb 2 26 ∧ calc_entropy (some [55]) = Real.logb 2 10
      ∧ calc_entropy (some [33]) = 5 := by
  refine ⟨?_, ?_, ?_⟩
  · rw [(C10_buckets_partition_bytes 97 (by decide)).2, if_pos (by decide)]
  · rw [(C10_buckets_partition_bytes 55 (by decide)).2, if_neg (by decide), if_pos (by decide)]
  · rw [(C10_buckets_partition_bytes 33 (by decide)).2, if_neg (by decide), if_neg (by decide)]

/-- C11 as stated fails: the password of `2^31` letters `a` is non-empty, yet
its pool is `1`, outside `10..94`, and its result is `0`, which is neither
strictly positive nor at least `length * log2(10)`. -/
theorem C11_counterexample_wrapped_length :
    List.replicate (2 ^ 31) (97 : Byte) ≠ []
      ∧ NulFree (List.replicate (2 ^ 31) (97 : Byte))
      ∧ calc_pool (List.replicate (2 ^ 31) (97 : Byte)) = 1
      ∧ calc_entropy (some (List.replicate (2 ^ 31) (97 : Byte))) = 0
      ∧ ¬ (((List.replicate (2 ^ 31) (97 : Byte)).length : ℝ) * Real.logb 2 10
            ≤ calc_entropy (some (List.replicate (2 ^ 31) (97 : Byte)))) := by
  have ha : (97 : Byte) ≠ 0 := by decide
  have hn : (2 ^ 31 : Nat) ≠ 0 := by norm_num
  have hlen : calc_len (List.replicate (2 ^ 31) (97 : Byte)) ≤ 0 := by
    rw [calc_len_long 97 ha]; norm_num
  have he := calc_entropy_of_len_nonpos hlen
  refine ⟨replicate_ne_nil hn 97, nulFree_replicate ha _, calc_pool_of_len_nonpos hlen, he, ?_⟩
  rw [he, List.length_replicate]
  have hL : 0 < Real.logb 2 10 := Real.logb_pos (by norm_num) (by norm_num)
  have hp : (0 : ℝ) < (((2 ^ 31 : Nat)) : ℝ) := by norm_num
  exact not_le.mpr (mul_pos hp hL)

/-- C11, amended: for every non-empty password shorter than `2^31` bytes the
pool lies between `10` and `94`, the result lies between `length * log2(10)`
and `length * log2(94)` and is strictly positive; so among the null pointer
and the passwords shorter than `2^31` bytes, `calc_entropy` returns `0` on
the null pointer and on the empty password and on no other. -/
theorem C11_pool_and_result_bounds (s : List Byte) (hnul : NulFree s)
    (hlen : s.length < 2 ^ 31) :
    (s ≠ [] →
        10 ≤ calc_pool s ∧ calc_pool s ≤ 94
          ∧ (s.length : ℝ) * Real.logb 2 10 ≤ calc_entropy (some s)
          ∧ calc_entropy (some s) ≤ (s.length : ℝ) * Real.logb 2 94
          ∧ 0 < calc_entropy (some s))
      ∧ (calc_entropy (some s) = 0 ↔ s = [])
      ∧ calc_entropy none = 0 := by
  refine ⟨?_, ?_, rfl⟩
  · intro hne
    have hp := calc_pool_of_short hne hnul hlen
    have h10 : 10 ≤ calc_pool s := by rw [hp]; exact specPool_ge hne
    have h94 : calc_pool s ≤ 94 := by rw [hp]; exact specPool_le s
    have hl : (0 : ℝ) ≤ (s.length : ℝ) := Nat.cast_nonneg _
    have hlo := logb_pool_mono (a := 10) (by norm_num) h10
    have hhi := logb_pool_mono (b := 94) (by omega) h94
    have c10 : (((10 : Int)) : ℝ) = 10 := by norm_num
    have c94 : (((94 : Int)) : ℝ) = 94 := by norm_num
    rw [c10] at hlo
    rw [c94] at hhi
    refine ⟨h10, h94, ?_, ?_, calc_entropy_pos_of_short hne hnul hlen⟩
    · rw [calc_entropy_of_short hne hnul hlen]
      exact mul_le_mul_of_nonneg_left hlo hl
    · rw [calc_entropy_of_short hne hnul hlen]
      exact mul_le_mul_of_nonneg_left hhi hl
  · constructor
    · intro h0
      by_contra hne
      have := calc_entropy_pos_of_short hne hnul hlen
      linarith
    · intro h
      rw [h]
      exact calc_entropy_nil

/-- C11, on the password `Ab1!`. -/
theorem C11_witness_Ab1 :
    calc_entropy (some [65, 98, 49, 33]) ≠ 0 ∧ 0 < calc_entropy (some [65, 98, 49, 33])
      ∧ calc_pool [65, 98, 49, 33] ≤ 94 := by
  have h := C11_pool_and_result_bounds [65, 98, 49, 33] (by decide) (by decide)
  have hne : ([65, 98, 49, 33] : List Byte) ≠ [] := by decide
  exact ⟨fun h0 => hne (h.2.1.mp h0), (h.1 hne).2.2.2.2, (h.1 hne).2.1⟩

/-- C12 as stated fails: appending the byte `a` to the password of `2^31 - 1`
letters `a` makes `len` wrap to a negative value, and the result drops from
a positive number to `0`. -/
theorem C12_counterexample_wrapped_length :
    NulFree (List.replicate (2 ^ 31 - 1) (97 : Byte)) ∧ (97 : Byte) ≠ 0
      ∧ 0 < calc_entropy (some (List.replicate (2 ^ 31 - 1) (97 : Byte)))
      ∧ calc_entropy (some (List.replicate (2 ^ 31 - 1) (97 : Byte) ++ [97])) = 0
      ∧ ¬ (calc_entropy (some (List.replicate (2 ^ 31 - 1) (97 : Byte) ++ [97]))
            > calc_entropy (some (List.replicate (2 ^ 31 - 1) (97 : Byte)))) := by
  have ha : (97 : Byte) ≠ 0 := by decide
  have hs := nulFree_replicate ha (2 ^ 31 - 1)
  have hc : NulFree ([97] : List Byte) := by decide
  have hpos : 0 < calc_entropy (some (List.replicate (2 ^ 31 - 1) (97 : Byte))) :=
    calc_entropy_pos_of_short (replicate_ne_nil (by norm_num) 97) hs
      (by rw [List.length_replicate]; norm_num)
  have hz : calc_entropy (some (List.replicate (2 ^ 31 - 1) (97 : Byte) ++ [97])) = 0 :=
    calc_entropy_of_length_two_pow_31 (nulFree_append hs hc)
      (by rw [List.length_append, List.length_replicate, List.length_singleton]; norm_num)
  refine ⟨hs, ha, hpos, hz, ?_⟩
  rw [hz]
  exact not_lt.mpr (le_of_lt hpos)

/-- C12, amended: for every password `s`, empty or not, and every non-NUL
byte `c` such that `s` followed by `c` is shorter than `2^31` bytes, the
result on `s` followed by `c` is strictly greater than the result on `s`. -/
theorem C12_append_byte_increases (s : List Byte) (c : Byte) (hnul : NulFree s)
    (hc : c ≠ 0) (hlen : s.length + 1 < 2 ^ 31) :
    calc_entropy (some (s ++ [c])) > calc_entropy (some s) := by
  have hcn : NulFree [c] := by
    intro b hb
    rw [List.mem_singleton] at hb
    rw [hb]
    exact hc
  have hsc : NulFree (s ++ [c]) := nulFree_append hnul hcn
  have hne : s ++ [c] ≠ [] := List.append_ne_nil_of_right_ne_nil s (List.cons_ne_nil c [])
  have hl : (s ++ [c]).length < 2 ^ 31 := by
    rw [List.length_append, List.length_singleton]; exact hlen
  have hL := logb_pool_pos (specPool_ge hne)
  have h1 := length_mul_logb_mono (specPool_le_append_left s [c])
  rw [calc_entropy_short_spec hnul (by omega), calc_entropy_short_spec hsc hl,
    List.length_append, List.length_singleton]
  push_cast
  show _ < _
  linarith

/-- C12, on the password `ab` followed by `1`. -/
theorem C12_witness_ab_1 :
    calc_entropy (some ([97, 98] ++ [49])) > calc_entropy (some [97, 98]) :=
  C12_append_byte_increases [97, 98] 49 (by decide) (by decide) (by decide)

/-- C13 as stated fails: the two passwords of `2^32 + 1` bytes that start
`a1` and `1a` and go on with digits `1` are permutations of one another, of
equal length and with the same classes present, yet `len` wraps to `1`, the
loop reads the first byte alone, and the results are `log2(26)` and
`log2(10)`. -/
theorem C13_counterexample_wrapped_length :
    NulFree (97 :: 49 :: List.replicate (2 ^ 32 - 1) (49 : Byte))
      ∧ NulFree (49 :: 97 :: List.replicate (2 ^ 32 - 1) (49 : Byte))
      ∧ List.Perm (49 :: 97 :: List.replicate (2 ^ 32 - 1) (49 : Byte))
          (97 :: 49 :: List.replicate (2 ^ 32 - 1) (49 : Byte))
      ∧ (49 :: 97 :: List.replicate (2 ^ 32 - 1) (49 : Byte)).length
          = (97 :: 49 :: List.replicate (2 ^ 32 - 1) (49 : Byte)).length
      ∧ SameClasses (97 :: 49 :: List.replicate (2 ^ 32 - 1) (49 : Byte))
          (49 :: 97 :: List.replicate (2 ^ 32 - 1) (49 : Byte))
      ∧ calc_entropy (some (97 :: 49 :: List.replicate (2 ^ 32 - 1) (49 : Byte)))
          = Real.logb 2 26
      ∧ calc_entropy (some (49 :: 97 :: List.replicate (2 ^ 32 - 1) (49 : Byte)))
          = Real.logb 2 10
      ∧ calc_entropy (some (49 :: 97 :: List.replicate (2 ^ 32 - 1) (49 : Byte)))
          ≠ calc_entropy (some (97 :: 49 :: List.replicate (2 ^ 32 - 1) (49 : Byte))) := by
  have h1 : (49 : Byte) ≠ 0 := by decide
  have ha : (97 : Byte) ≠ 0 := by decide
  have hr := nulFree_replicate h1 (2 ^ 32 - 1)
  have hs : NulFree (97 :: 49 :: List.replicate (2 ^ 32 - 1) (49 : Byte)) :=
    nulFree_cons ha (nulFree_cons h1 hr)
  have ht : NulFree (49 :: 97 :: List.replicate (2 ^ 32 - 1) (49 : Byte)) :=
    nulFree_cons h1 (nulFree_cons ha hr)
  have hperm : List.Perm (49 :: 97 :: List.replicate (2 ^ 32 - 1) (49 : Byte))
      (97 :: 49 :: List.replicate (2 ^ 32 - 1) (49 : Byte)) := List.Perm.swap _ _ _
  have hls : (49 :: List.replicate (2 ^ 32 - 1) (49 : Byte)).length = 2 ^ 32 := by
    rw [List.length_cons, List.length_replicate]; norm_num
  have hlt : (97 :: List.replicate (2 ^ 32 - 1) (49 : Byte)).length = 2 ^ 32 := by
    rw [List.length_cons, List.length_replicate]; norm_num
  have p26 : clampPool (poolSum (classify Flags.init 97)) = 26 := by decide
  have p10 : clampPool (poolSum (classify Flags.init 49)) = 10 := by decide
  have es : calc_entropy (some (97 :: 49 :: List.replicate (2 ^ 32 - 1) (49 : Byte)))
      = Real.logb 2 26 := by
    rw [calc_entropy_wrapped_one hs hls, p26]; norm_num
  have et : calc_entropy (some (49 :: 97 :: List.replicate (2 ^ 32 - 1) (49 : Byte)))
      = Real.logb 2 10 := by
    rw [calc_entropy_wrapped_one ht hlt, p10]; norm_num
  refine ⟨hs, ht, hperm, hperm.length_eq, sameClasses_of_perm hperm.symm, es, et, ?_⟩
  rw [es, et]
  have hlt : Real.logb 2 10 < Real.logb 2 26 :=
    Real.logb_lt_logb (by norm_num) (by norm_num) (by norm_num)
  exact ne_of_lt hlt

/-- C13, amended: below `2^31` bytes the result depends on the length and on
the classes present only: two passwords of equal length, shorter than `2^31`
bytes, with the same set of classes present get the same result, and so does
every permutation of the bytes of such a password. -/
theorem C13_depends_on_length_and_classes (s t : List Byte) (hs : NulFree s)
    (ht : NulFree t) (hlen : s.length < 2 ^ 31) (hl : s.length = t.length)
    (hcls : SameClasses s t) :
    calc_entropy (some t) = calc_entropy (some s)
      ∧ ∀ u : List Byte, List.Perm u s → calc_entropy (some u) = calc_entropy (some s) := by
  refine ⟨calc_entropy_congr_short hs ht hlen hl hcls, ?_⟩
  intro u hu
  exact calc_entropy_congr_short hs (nulFree_of_perm hu.symm hs) hlen hu.length_eq.symm
    (sameClasses_of_perm hu.symm)

/-- C13, on `ab1` and `xy9` (equal length, the same classes) and on `1ba`
(a permutation of `ab1`). -/
theorem C13_witness_ab1 :
    calc_entropy (some [120, 121, 57]) = calc_entropy (some [97, 98, 49])
      ∧ calc_entropy (some [49, 98, 97]) = calc_entropy (some [97, 98, 49]) := by
  have h := C13_depends_on_length_and_classes [97, 98, 49] [120, 121, 57]
    (by decide) (by decide) (by decide) (by decide) (by decide)
  exact ⟨h.1, h.2 [49, 98, 97] (by decide)⟩

/-- C15: the length is narrowed to a signed 32-bit `int` by wrap-around
modulo `2^32`, so for a password the result is the number of bytes
times the base-2 logarithm of the pool of its classes exactly when the
password is shorter than `2^31` bytes; on a password of exactly `2^32` bytes
`len` is `0` and the result is `0.0`; on a password of `2^31` bytes `len` is
negative, the loop runs zero times, no flag is set, the pool is clamped from
`0` to `1` and the result is `len * log2(1) = 0`. -/
theorem C15_narrowed_length (s : List Byte) (hnul : NulFree s) :
    (calc_entropy (some s) = (s.length : ℝ) * Real.logb 2 ((specPool s : Int) : ℝ)
        ↔ s.length < 2 ^ 31)
      ∧ (s.length = 2 ^ 32 → calc_len s = 0 ∧ calc_entropy (some s) = 0)
      ∧ (s.length = 2 ^ 31 →
          calc_len s < 0 ∧ (calc_len s).toNat = 0 ∧ calc_flags s = ⟨0, 0, 0, 0⟩
            ∧ calc_pool_raw s = 0 ∧ calc_pool s = 1
            ∧ calc_entropy (some s) = (calc_len s : ℝ) * Real.logb 2 1
            ∧ calc_entropy (some s) = 0) := by
  refine ⟨?_, ?_, ?_⟩
  · constructor
    · intro h
      by_contra hlong
      have := calc_entropy_lt_of_long hnul (not_lt.mp hlong)
      linarith
    · intro h
      exact calc_entropy_short_spec hnul h
  · intro h
    have hl : calc_len s = 0 := by
      rw [calc_len_of_nulFree hnul, h, toInt32_two_pow_32]
    exact ⟨hl, calc_entropy_of_len_nonpos (le_of_eq hl)⟩
  · intro h
    have hl : calc_len s = -2 ^ 31 := by
      rw [calc_len_of_nulFree hnul, h, toInt32_two_pow_31]
    have hneg : calc_len s < 0 := by rw [hl]; norm_num
    have hle := le_of_lt hneg
    have he := calc_entropy_of_len_nonpos hle
    refine ⟨hneg, Int.toNat_eq_zero.mpr hle, calc_flags_of_len_nonpos hle,
      calc_pool_raw_of_len_nonpos hle, calc_pool_of_len_nonpos hle, ?_, he⟩
    rw [he, Real.logb_one, mul_zero]

/-- C15, on the passwords of `2^31` and of `2^32` letters `a`. -/
theorem C15_witness_two_pow_31_and_32 :
    calc_len (List.replicate (2 ^ 31) (97 : Byte)) < 0
      ∧ calc_entropy (some (List.replicate (2 ^ 31) (97 : Byte))) = 0
      ∧ calc_len (List.replicate (2 ^ 32) (97 : Byte)) = 0
      ∧ calc_entropy (some (List.replicate (2 ^ 32) (97 : Byte))) = 0 := by
  have ha : (97 : Byte) ≠ 0 := by decide
  have h31 := (C15_narrowed_length (List.replicate (2 ^ 31) (97 : Byte))
    (nulFree_replicate ha _)).2.2
    (List.length_replicate _ _)
  have h32 := (C15_narrowed_length (List.replicate (2 ^ 32) (97 : Byte))
    (nulFree_replicate ha _)).2.1
    (List.length_replicate _ _)
  exact ⟨h31.1, h31.2.2.2.2.2.2, h32.1, h32.2⟩

end PassGuard
